import Mathlib

/-
Verification of the ft-flags feature-manifest resolution and validation
engine, embedded shallowly from the TypeScript source (src/src/manifest.ts,
src/src/registry.ts, src/src/types.ts).

Conventions of the embedding:
* JavaScript `Map<string, T>` is modelled as an association list
  `List (String × T)` with map semantics: lookup returns the first binding
  and `aset` replaces the existing binding in place (or appends a new one),
  exactly like `Map.prototype.set`.
* JavaScript `Set<string>` is modelled as a duplicate-free insertion-ordered
  `List String` via `addSet` (`Set.prototype.add` is a no-op on members).
* The unbounded recursion of the JS `enable` helper is modelled with an
  explicit fuel parameter; the fuel the driver supplies is proved sufficient
  for every manifest (see `resolveFuel_isSome`), so the fuelled function is
  total on the inputs the driver produces.
-/

set_option maxHeartbeats 1000000

-- ===========================================================================
-- Association-list model of JS Map, and JS string primitives
-- ===========================================================================

/-- Lookup in a JS `Map`: value of the first binding of key `k`, if any. -/
def alookup {α : Type} (l : List (String × α)) (k : String) : Option α :=
  match l.find? (fun p => p.1 == k) with
  | some p => some p.2
  | none => none

/-- JS `Map.prototype.set`: replace the binding of `k` in place, else append. -/
def aset {α : Type} (l : List (String × α)) (k : String) (v : α) :
    List (String × α) :=
  match l with
  | [] => [(k, v)]
  | (k', v') :: t => if k' == k then (k, v) :: t else (k', v') :: aset t k v

/-- JS `Map.prototype.has`. -/
def hasKeyB {α : Type} (l : List (String × α)) (k : String) : Bool :=
  (alookup l k).isSome

/-- JS `Set.prototype.add`: append the element unless already present. -/
def addSet (s : List String) (x : String) : List String :=
  if s.contains x then s else s ++ [x]

/-- JS `String.prototype.startsWith`, via the character lists. -/
def jsStartsWith (s pre : String) : Bool :=
  pre.toList.isPrefixOf s.toList

/-- JS `String.prototype.endsWith` for a single-character suffix. -/
def jsEndsWithChar (s : String) (c : Char) : Bool :=
  match s.toList.getLast? with
  | some c' => c' == c
  | none => false

/-- JS `s.slice(n)` for ASCII strings: drop the first `n` characters. -/
def jsSliceFrom (s : String) (n : Nat) : String :=
  String.mk (s.toList.drop n)

-- ===========================================================================
-- Manifest data model (src/src/manifest.ts, first generation)
-- ===========================================================================

/-- Metadata for a feature in the manifest (`FeatureManifestMetadata`). -/
structure FeatureManifestMetadata where
  description : Option String := none
  since : Option String := none
  unstable : Bool := false
  deprecated : Bool := false
  deprecatedMessage : Option String := none
  docsUrl : Option String := none
  requiredDeps : List String := []
deriving DecidableEq

/-- Package dependency information for validation (`PackageDependencies`).
Each JS `Record<string,string>` is an association list; an absent record is
the empty list (iterating it visits nothing, like the `if` guards in
`getAllDependencyNames`). -/
structure PackageDependencies where
  dependencies : List (String × String) := []
  optionalDependencies : List (String × String) := []
  peerDependencies : List (String × String) := []
  devDependencies : List (String × String) := []
deriving DecidableEq

/-- A feature manifest (`FeatureManifest`): map from feature names to the
list of activation targets, plus optional metadata and dependencies. -/
structure FeatureManifest where
  features : List (String × List String)
  metadata : List (String × FeatureManifestMetadata) := []
  dependencies : Option PackageDependencies := none
deriving DecidableEq

/-- Options for resolving features (`ResolveOptions`). An absent
`features` array is the empty list (the JS loop body runs zero times in
either case). -/
structure ResolveOptions where
  features : List String := []
  noDefaultFeatures : Bool := false
  allFeatures : Bool := false
deriving DecidableEq

/-- Result of feature resolution (`ResolvedFeatures`). -/
structure ResolvedFeatures where
  enabled : List String
  enabledBy : List (String × List String)
  manifest : FeatureManifest
  options : ResolveOptions
deriving DecidableEq

/-- Activation targets of a feature: `manifest.features.get(feature) ?? []`. -/
def targetsOf (m : FeatureManifest) (f : String) : List String :=
  (alookup m.features f).getD []

-- ===========================================================================
-- Resolution engine (resolveFeatures, src/src/manifest.ts lines 445-506)
-- ===========================================================================

/-- Mutable state of the `resolveFeatures` closure: the `enabled` set and
the `enabledBy` provenance map. -/
structure RState where
  enabled : List String
  enabledBy : List (String × List String)
deriving DecidableEq

/-- Record `cause` in `feature`'s provenance list if not already present
(the `reasons` update inside the `enable` helper). -/
def addReason (eb : List (String × List String)) (feature cause : String) :
    List (String × List String) :=
  let reasons := (alookup eb feature).getD []
  if reasons.contains cause then eb else aset eb feature (reasons ++ [cause])

/-- The recursive `enable` helper of `resolveFeatures`, with explicit fuel
standing in for the unbounded JS recursion (fuel exhaustion yields `none`;
the driver's fuel is proved sufficient in `resolveFuel_isSome`).
If `feature` is not declared, no-op; otherwise record the cause, and unless
the feature was already enabled, mark it enabled and recursively enable
every target with the feature itself as cause. -/
def enable (m : FeatureManifest) : Nat → String → String → RState →
    Option RState
  | 0, _, _, _ => none
  | n + 1, feature, cause, st =>
    if hasKeyB m.features feature then
      let wasEnabled := st.enabled.contains feature
      let st1 : RState :=
        ⟨addSet st.enabled feature, addReason st.enabledBy feature cause⟩
      if wasEnabled then some st1
      else (targetsOf m feature).foldlM
        (fun acc dep => enable m n dep feature acc) st1
    else some st

/-- Sequentially enable each name in `names` with the fixed `cause`
(the `for` loops of the `resolveFeatures` driver, and the dependency loop of
`enable` with `cause` = the parent feature). -/
def enableList (m : FeatureManifest) (n : Nat) (names : List String)
    (cause : String) (st : RState) : Option RState :=
  names.foldlM (fun acc f => enable m n f cause acc) st

/-- Driver of `resolveFeatures`: all features, or default plus the
explicitly requested ones. Each top-level `enable` call receives fuel
`|features| + 1`, which is sufficient (see `resolveFuel_isSome`). -/
def resolveFuel (m : FeatureManifest) (o : ResolveOptions) : Option RState :=
  let fuel := m.features.length + 1
  let st0 : RState := ⟨[], []⟩
  if o.allFeatures then
    enableList m fuel (m.features.map Prod.fst) "<all-features>" st0
  else
    let afterDefault : Option RState :=
      if !o.noDefaultFeatures && hasKeyB m.features "default" then
        enable m fuel "default" "<default>" st0
      else some st0
    match afterDefault with
    | none => none
    | some st1 => enableList m fuel o.features "<explicit>" st1

/-- Resolves which features are enabled based on options (`resolveFeatures`).
The `getD` default is never taken: `resolveFuel_isSome` shows the fuelled
computation succeeds on every input. -/
def resolveFeatures (m : FeatureManifest) (o : ResolveOptions) :
    ResolvedFeatures :=
  let st := (resolveFuel m o).getD ⟨[], []⟩
  ⟨st.enabled, st.enabledBy, m, o⟩

-- ===========================================================================
-- The activation-target relation and reachability
-- ===========================================================================

/-- One activation edge of the local feature graph: `b` is a declared
feature listed among `a`'s activation targets. -/
def StepRel (m : FeatureManifest) (a b : String) : Prop :=
  hasKeyB m.features b = true ∧ b ∈ targetsOf m a

/-- Reachability through declared features, avoiding the set `s`: there is
an activation path from `f` to `x` all of whose nodes are declared and
outside `s`. This is the invariant shape matching the `enabled` seen-check
of the `enable` helper. -/
inductive ReachAvoid (m : FeatureManifest) (s : List String) :
    String → String → Prop
  | base (f : String) (hk : hasKeyB m.features f = true) (hns : f ∉ s) :
      ReachAvoid m s f f
  | step (f d x : String) (hk : hasKeyB m.features f = true) (hns : f ∉ s)
      (hd : d ∈ targetsOf m f) (h : ReachAvoid m s d x) :
      ReachAvoid m s f x

/-- Activated roots of a resolution, as the specification describes them:
all declared features when `allFeatures` is set, otherwise the declared
"default" feature (unless suppressed) plus every declared name in
`options.features`. -/
def activationRoots (m : FeatureManifest) (o : ResolveOptions) :
    List String :=
  if o.allFeatures then m.features.map Prod.fst
  else
    (if !o.noDefaultFeatures && hasKeyB m.features "default" then ["default"]
     else [])
    ++ o.features.filter (fun f => hasKeyB m.features f)

/-- Unfiltered root list: same as `activationRoots` but keeping undeclared
explicit names (which `ReachAvoid` rules out on its own). -/
def rawRoots (m : FeatureManifest) (o : ResolveOptions) : List String :=
  if o.allFeatures then m.features.map Prod.fst
  else
    (if !o.noDefaultFeatures && hasKeyB m.features "default" then ["default"]
     else [])
    ++ o.features

-- ===========================================================================
-- Identifier validators (src/unnamed part_005 types.ts, flat generation)
-- ===========================================================================

/-- Tail automaton for the kebab-case pattern
`[a-z][a-z0-9]*(?:-[a-z0-9]+)*`: the Bool argument records whether the
previous character was a hyphen (which must be followed by an
alphanumeric). -/
def kebabTail : List Char → Bool → Bool
  | [], afterHyphen => !afterHyphen
  | c :: cs, afterHyphen =>
    if c = '-' then !afterHyphen && kebabTail cs true
    else (c.isLower || c.isDigit) && kebabTail cs false

/-- Test of the regex `^[a-z][a-z0-9]*(?:-[a-z0-9]+)*$` (the
`FEATURE_ID_PATTERN` of the flat generation, also the package-name rule). -/
def kebabCase (s : String) : Bool :=
  match s.toList with
  | [] => false
  | c :: cs => c.isLower && kebabTail cs false

/-- JS `s.includes("--")`: two consecutive hyphens somewhere. -/
def hasDoubleHyphen : List Char → Bool
  | '-' :: '-' :: _ => true
  | _ :: t => hasDoubleHyphen t
  | [] => false

/-- Validates that a string is a valid (flat, kebab-case) feature ID
(`isValidFeatureId`): non-empty, no leading/trailing hyphen, no `--`,
no dot, and matching the kebab pattern. -/
def isValidFeatureId (id : String) : Bool :=
  if id = "" then false
  else if jsStartsWith id "-" || jsEndsWithChar id '-' then false
  else if hasDoubleHyphen id.toList then false
  else if id.toList.contains '.' then false
  else kebabCase id

/-- JS `String.prototype.split` with a single-character separator. -/
def splitCh (c : Char) : List Char → List (List Char)
  | [] => [[]]
  | a :: t =>
    match splitCh c t with
    | [] => [[]]
    | h :: r => if a = c then [] :: h :: r else (a :: h) :: r

/-- Validates a package name, allowing scoped packages like `@scope/name`
(`isValidPackageName`, src/src/manifest.ts lines 852-866). -/
def isValidPackageName (name : String) : Bool :=
  if name = "" then false
  else if jsStartsWith name "@" then
    let parts := splitCh '/' (name.toList.drop 1)
    decide (parts.length = 2) && parts.all (fun p => kebabCase (String.mk p))
  else kebabCase name

/-- Split a character list at the first `:`, if any. -/
def splitAtColon : List Char → Option (List Char × List Char)
  | [] => none
  | c :: cs =>
    if c = ':' then some ([], cs)
    else (splitAtColon cs).map (fun p => (c :: p.1, p.2))

/-- Modelled from the spec: `isDepFeatureRef` for the `:`-separator
generation of types.ts is absent from the sources (only the `/`-separator
variant is present); per spec section 4.1 and the module doc of
src/src/manifest.ts, a dependency feature reference contains a `:`. -/
def isDepFeatureRef (s : String) : Bool :=
  s.toList.contains ':'

/-- Modelled from the spec: `getDepPackage` splits a `pkg:feature`
reference at the first `:` and returns the package part, or `none`
(JS `undefined`) when there is no `:`. -/
def getDepPackage (s : String) : Option String :=
  (splitAtColon s.toList).map (fun p => String.mk p.1)

/-- Modelled from the spec: `getDepFeature` returns the part after the
first `:`, or the whole string when there is no `:`. -/
def getDepFeature (s : String) : String :=
  match splitAtColon s.toList with
  | some p => String.mk p.2
  | none => s

-- ===========================================================================
-- Validator (src/src/manifest.ts lines 598-942, first generation)
-- ===========================================================================

/-- Validation result for a manifest (`ManifestValidation`). -/
structure ManifestValidation where
  valid : Bool
  errors : List String
  warnings : List String
deriving DecidableEq

/-- Options for manifest validation (`ValidateOptions`). -/
structure ValidateOptions where
  dependencies : Option PackageDependencies := none
  strictDependencies : Bool := false
deriving DecidableEq

/-- Information about an external reference (`ExternalReference`); `type`
is the literal "dep" or "pkg-feature". -/
structure ExternalReference where
  feature : String
  reference : String
  type : String
  packageName : String
  featureName : Option String := none
deriving DecidableEq

/-- Extracts all external references (`extractExternalReferences`). -/
def extractExternalReferences (m : FeatureManifest) :
    List ExternalReference :=
  m.features.foldl (fun acc entry =>
    acc ++ entry.2.filterMap (fun dep =>
      if jsStartsWith dep "dep:" then
        some ⟨entry.1, dep, "dep", jsSliceFrom dep 4, none⟩
      else if isDepFeatureRef dep then
        let pkg := (getDepPackage dep).getD ""
        if pkg = "" then none
        else some ⟨entry.1, dep, "pkg-feature", pkg, some (getDepFeature dep)⟩
      else none)) []

/-- Union of all dependency names of one record section, in order. -/
def addAllKeys (s : List String) (l : List (String × String)) :
    List String :=
  l.foldl (fun acc p => addSet acc p.1) s

/-- Gets all available dependency names (`getAllDependencyNames`). -/
def getAllDependencyNames (deps : PackageDependencies) : List String :=
  addAllKeys (addAllKeys (addAllKeys (addAllKeys [] deps.dependencies)
    deps.optionalDependencies) deps.peerDependencies) deps.devDependencies

/-- Error message of an unknown local feature reference. -/
def unknownFeatureMsg (featureName ref : String) : String :=
  "Feature \"" ++ featureName ++ "\" references unknown feature \"" ++
    ref ++ "\""

/-- Validates one activation-list entry (`validateFeatureReference`):
`dep:` references and `pkg:feature` references are syntax-checked, local
references must name a declared feature; returns the error message if
invalid, `none` if valid. -/
def validateFeatureReference (ref featureName : String)
    (allFeatures : List String) : Option String :=
  if jsStartsWith ref "dep:" then
    let depName := jsSliceFrom ref 4
    if depName = "" then
      some ("Feature \"" ++ featureName ++ "\" has invalid dep: reference \""
        ++ ref ++ "\": missing package name")
    else if !isValidPackageName depName then
      some ("Feature \"" ++ featureName ++ "\" has invalid dep: reference \""
        ++ ref ++ "\": \"" ++ depName ++ "\" is not a valid package name")
    else none
  else if isDepFeatureRef ref then
    let pkg := (getDepPackage ref).getD ""
    let feat := getDepFeature ref
    if pkg = "" then
      some ("Feature \"" ++ featureName ++
        "\" has invalid external reference \"" ++ ref ++
        "\": missing package name")
    else if feat = "" then
      some ("Feature \"" ++ featureName ++
        "\" has invalid external reference \"" ++ ref ++
        "\": missing feature name")
    else if !isValidPackageName pkg then
      some ("Feature \"" ++ featureName ++
        "\" has invalid external reference \"" ++ ref ++ "\": \"" ++ pkg ++
        "\" is not a valid package name")
    else if !isValidFeatureId feat then
      some ("Feature \"" ++ featureName ++
        "\" has invalid external reference \"" ++ ref ++ "\": \"" ++ feat ++
        "\" is not a valid feature name (must be kebab-case)")
    else none
  else if allFeatures.contains ref then none
  else some (unknownFeatureMsg featureName ref)

/-- Validates a declaration name (`isValidFeatureIdOrDefault`): "default"
is always valid; `dep:` and `pkg:feature` shapes are rejected as
declaration names; otherwise the kebab-case feature-ID rule applies. -/
def isValidFeatureIdOrDefault (name : String) : Bool :=
  if name = "default" then true
  else if jsStartsWith name "dep:" then false
  else if isDepFeatureRef name then false
  else isValidFeatureId name

/-- State of the `detectCycles` DFS: accumulated cycles, the global
visited set and the recursion-stack set. -/
structure CycState where
  cycles : List (List String)
  visited : List String
  inStack : List String
deriving DecidableEq

/-- The DFS of `detectCycles` (src/src/manifest.ts lines 904-942), with
fuel standing in for the unbounded JS recursion (the driver passes
`|features| + 2`, which bounds the recursion depth: every nested call
below the first either visits a fresh declared node or returns
immediately). On a node in the recursion stack, slice the path from that
node's first occurrence and record the cycle; on a visited node, stop;
otherwise mark, recurse into declared non-`dep:` targets, and unwind. -/
def dfsCyc (m : FeatureManifest) : Nat → String → List String → CycState →
    CycState
  | 0, _, _, st => st
  | n + 1, node, path, st =>
    if st.inStack.contains node then
      let cycleStart := path.indexOf node
      let cycle := path.drop cycleStart ++ [node]
      { st with cycles := st.cycles ++ [cycle] }
    else if st.visited.contains node then st
    else
      let st1 : CycState :=
        { st with visited := addSet st.visited node,
                  inStack := addSet st.inStack node }
      let path1 := path ++ [node]
      let st2 := (targetsOf m node).foldl (fun acc dep =>
        if !jsStartsWith dep "dep:" && hasKeyB m.features dep then
          dfsCyc m n dep path1 acc
        else acc) st1
      { st2 with inStack := st2.inStack.erase node }

/-- Detects circular dependencies in the manifest (`detectCycles`):
depth-first search from every declared feature with a shared visited set
and a recursion-stack set. -/
def detectCycles (m : FeatureManifest) : List (List String) :=
  ((m.features.map Prod.fst).foldl
    (fun st name => dfsCyc m (m.features.length + 2) name [] st)
    ⟨[], [], []⟩).cycles

/-- JS `Array.prototype.join`. -/
def joinSep (sep : String) : List String → String
  | [] => ""
  | [a] => a
  | a :: t => a ++ sep ++ joinSep sep t

/-- Errors contributed by one feature entry of the validation loop: name
format, self-reference, then each activation-list entry in order. -/
def entryErrors (allFeatures : List String) (entry : String × List String) :
    List String :=
  (if !isValidFeatureIdOrDefault entry.1 then
    ["Invalid feature name \"" ++ entry.1 ++
      "\": must be kebab-case (e.g., 'async-runtime')"]
  else [])
  ++ (if entry.2.contains entry.1 then
    ["Feature \"" ++ entry.1 ++ "\" references itself"]
  else [])
  ++ entry.2.filterMap
    (fun dep => validateFeatureReference dep entry.1 allFeatures)

/-- Validates a feature manifest (`validateManifest`, src/src/manifest.ts
lines 729-820): name/self-reference/reference errors per feature, cycle
errors, external-dependency existence (errors under `strictDependencies`,
warnings otherwise), and the advisory metadata/default warnings. Result is
valid iff the error list is empty. -/
def validateManifest (m : FeatureManifest)
    (options : Option ValidateOptions := none) : ManifestValidation :=
  let allFeatures := m.features.map Prod.fst
  let availableDeps : Option (List String) :=
    match options with
    | some o =>
      match o.dependencies with
      | some d => some (getAllDependencyNames d)
      | none => none
    | none => none
  let featureErrors := m.features.foldl
    (fun acc entry => acc ++ entryErrors allFeatures entry) []
  let cycleErrors := (detectCycles m).map
    (fun cyc => "Circular dependency detected: " ++ joinSep " -> " cyc)
  let extMessages : List String :=
    match availableDeps with
    | some names =>
      (extractExternalReferences m).filterMap (fun ref =>
        if !names.contains ref.packageName then
          some ("Feature \"" ++ ref.feature ++
            "\" references non-existent dependency \"" ++ ref.packageName ++
            "\" via \"" ++ ref.reference ++ "\"")
        else none)
    | none => []
  let strict := match options with
    | some o => o.strictDependencies
    | none => false
  let metaUnknown := m.metadata.filterMap (fun p =>
    if !allFeatures.contains p.1 then
      some ("Metadata defined for unknown feature \"" ++ p.1 ++ "\"")
    else none)
  let deprecatedNoMsg := m.metadata.filterMap (fun p =>
    if p.2.deprecated &&
        (match p.2.deprecatedMessage with
          | none => true
          | some msg => msg = "") then
      some ("Feature \"" ++ p.1 ++
        "\" is marked deprecated but has no deprecation message")
    else none)
  let noDefault :=
    if !hasKeyB m.features "default" then
      ["No \"default\" feature defined. Consider adding one for conventional usage."]
    else []
  let emptyDefault :=
    match alookup m.features "default" with
    | some [] =>
      ["The \"default\" feature enables no other features. Consider adding features to it."]
    | _ => []
  let errors := featureErrors ++ cycleErrors ++
    (if strict then extMessages else [])
  let warnings := (if strict then [] else extMessages) ++ metaUnknown ++
    deprecatedNoMsg ++ noDefault ++ emptyDefault
  ⟨errors.isEmpty, errors, warnings⟩

-- ===========================================================================
-- Registry (src/src/registry.ts, src/src/types.ts)
-- ===========================================================================

/-- Source from which a feature configuration was loaded (`ConfigSource`). -/
inductive ConfigSource where
  | denoJson (path : String)
  | packageJson (path : String)
  | env (varName : String)
  | cli (args : List String)
  | programmatic
deriving DecidableEq

/-- The current evaluation state of a feature (`FeatureState`); `reason`
holds one of the `FeatureStateReason` string literals. -/
structure FeatureState where
  enabled : Bool
  reason : String
  source : Option ConfigSource := none
deriving DecidableEq

/-- Definition of a single feature in the schema (`FeatureDefinition`);
the free-form `metadata` record is omitted, no verified operation reads
it. -/
structure FeatureDefinition where
  id : String
  name : Option String := none
  description : Option String := none
  parent : Option String := none
  cascadeToChildren : Option Bool := none
  defaultEnabled : Option Bool := none
deriving DecidableEq

/-- A complete feature schema (`FeatureSchema`). -/
structure FeatureSchema where
  features : List (String × FeatureDefinition) := []
  roots : List String := []
  children : List (String × List String) := []
deriving DecidableEq

/-- Configuration for which features are enabled/disabled
(`FeatureConfig`). -/
structure FeatureConfig where
  enabled : List String := []
  disabled : List String := []
  enableAll : Bool := false
  disableAll : Bool := false
deriving DecidableEq

/-- Resolved configuration with source tracking (`ResolvedConfig`). -/
structure ResolvedConfig where
  config : FeatureConfig
  source : ConfigSource
deriving DecidableEq

/-- A runtime registry of features and their states (`FeatureRegistry`).
Feature IDs are plain strings (the `FeatureId` brand is compile-time
only). -/
structure FeatureRegistry where
  schema : FeatureSchema
  states : List (String × FeatureState)
  config : ResolvedConfig
deriving DecidableEq

/-- The error values the registry can raise: `FeatureNotFoundError`
carries only the feature name (types.ts lines 376-384), while
`FeatureNotEnabledError` carries the name and the full state (types.ts
lines 361-371). -/
inductive RegistryError where
  | featureNotFoundErr (featureId : String)
  | featureNotEnabledErr (featureId : String) (state : FeatureState)
deriving DecidableEq

/-- Checks if a feature is enabled (`isEnabled`):
`state?.enabled ?? false`. -/
def isEnabled (r : FeatureRegistry) (id : String) : Bool :=
  match alookup r.states id with
  | some st => st.enabled
  | none => false

/-- Requires a feature to be enabled (`requireFeature`): raising is
modelled as returning `Except.error`; the code throws
`FeatureNotFoundError(id)` (carrying only the name) even though its doc
comment announces `FeatureNotEnabledError`. -/
def requireFeature (r : FeatureRegistry) (id : String) :
    Except RegistryError Unit :=
  if isEnabled r id then Except.ok ()
  else Except.error (RegistryError.featureNotFoundErr id)

/-- Applies an enable to a feature (`applyEnable`). -/
def applyEnable (id : String) (states : List (String × FeatureState))
    (source : ConfigSource) (reason : String) :
    List (String × FeatureState) :=
  aset states id ⟨true, reason, some source⟩

/-- Applies a disable to a feature (`applyDisable`). -/
def applyDisable (id : String) (states : List (String × FeatureState))
    (source : ConfigSource) (reason : String) :
    List (String × FeatureState) :=
  aset states id ⟨false, reason, some source⟩

/-- Sets the state of a feature, returning a new registry with a copied
state map (`setFeatureState`); the original registry value is untouched. -/
def setFeatureState (r : FeatureRegistry) (id : String) (enabled : Bool) :
    FeatureRegistry :=
  let newStates := r.states
  let reason : String :=
    if enabled then "explicit-enabled" else "explicit-disabled"
  ⟨r.schema,
   if enabled then applyEnable id newStates ConfigSource.programmatic reason
   else applyDisable id newStates ConfigSource.programmatic reason,
   r.config⟩

/-- Enables a feature, returning a new registry (`enableFeature`). -/
def enableFeature (r : FeatureRegistry) (id : String) : FeatureRegistry :=
  setFeatureState r id true

/-- Disables a feature, returning a new registry (`disableFeature`). -/
def disableFeature (r : FeatureRegistry) (id : String) : FeatureRegistry :=
  setFeatureState r id false

-- ===========================================================================
-- Concrete inputs used by witnesses and concrete claims
-- ===========================================================================

/-- The diamond manifest of the specification:
top activates left and right, both of which activate bottom. -/
def diamondManifest : FeatureManifest :=
  ⟨[("top", ["left", "right"]), ("left", ["bottom"]),
    ("right", ["bottom"]), ("bottom", [])], [], none⟩

/-- The two-cycle manifest of the specification. -/
def twoCycleManifest : FeatureManifest :=
  ⟨[("a", ["b"]), ("b", ["a"])], [], none⟩

/-- An edge-free manifest (trivially acyclic), used to witness C1. -/
def edgelessManifest : FeatureManifest :=
  ⟨[("default", [])], [], none⟩

/-- A small manifest with a default chain, used to witness C2/C3/C6. -/
def sampleManifest : FeatureManifest :=
  ⟨[("default", ["std"]), ("std", []), ("extra", ["dep:tokio"])], [], none⟩

/-- The unknown-reference manifest of the specification, for C8. -/
def unknownRefManifest : FeatureManifest :=
  ⟨[("a", ["unknown-x"])], [], none⟩

/-- A registry with one disabled feature "x" and one enabled feature "y",
used for C9/C10. -/
def sampleRegistry : FeatureRegistry :=
  ⟨{}, [("x", ⟨false, "default-disabled", none⟩),
        ("y", ⟨true, "explicit-enabled", none⟩)],
   ⟨{}, ConfigSource.programmatic⟩⟩

/-- The recorded enabler list of a feature: `enabledBy.get(x) ?? []`. -/
def reasonsOf (eb : List (String × List String)) (x : String) :
    List String :=
  (alookup eb x).getD []

-- ===========================================================================
-- Basic lemmas about the JS collection models
-- ===========================================================================

lemma contains_iff_mem (s : List String) (x : String) :
    s.contains x = true ↔ x ∈ s := by
  simp [List.contains]

lemma addSet_of_mem {s : List String} {y : String} (h : y ∈ s) :
    addSet s y = s := by
  unfold addSet
  rw [if_pos ((contains_iff_mem s y).mpr h)]

lemma addSet_of_not_mem {s : List String} {y : String} (h : y ∉ s) :
    addSet s y = s ++ [y] := by
  unfold addSet
  rw [if_neg (fun hc => h ((contains_iff_mem s y).mp hc))]

lemma mem_addSet {s : List String} {x y : String} :
    x ∈ addSet s y ↔ (x ∈ s ∨ x = y) := by
  by_cases h : y ∈ s
  · rw [addSet_of_mem h]
    constructor
    · exact fun hx => Or.inl hx
    · rintro (hx | rfl)
      · exact hx
      · exact h
  · rw [addSet_of_not_mem h]
    simp

lemma alookup_cons {α : Type} (k1 : String) (v1 : α) (t : List (String × α))
    (k' : String) :
    alookup ((k1, v1) :: t) k' =
      if k1 == k' then some v1 else alookup t k' := by
  simp only [alookup, List.find?]
  cases h : (k1 == k') <;> simp [h]

lemma alookup_aset {α : Type} (l : List (String × α)) (k k' : String)
    (v : α) :
    alookup (aset l k v) k' = if k' = k then some v else alookup l k' := by
  induction l with
  | nil =>
    by_cases h : k' = k
    · subst h
      simp [aset, alookup_cons]
    · have hb : (k == k') = false := by
        simp
        exact fun e => h e.symm
      simp [aset, alookup_cons, hb, h, alookup]
  | cons p t ih =>
    obtain ⟨k1, v1⟩ := p
    cases hbk : (k1 == k) with
    | true =>
      have hk1 : k1 = k := by
        simpa using hbk
      subst hk1
      simp only [aset, hbk, if_true]
      by_cases h2 : k' = k1
      · subst h2
        simp [alookup_cons]
      · have hb1 : (k1 == k') = false := by
          simp
          exact fun e => h2 e.symm
        simp [alookup_cons, hb1, h2]
    | false =>
      have hk1 : k1 ≠ k := by
        simpa using hbk
      simp only [aset, hbk, Bool.false_eq_true, if_false]
      cases hbk' : (k1 == k') with
      | true =>
        have hk1' : k1 = k' := by
          simpa using hbk'
        have hne' : ¬ k' = k := fun e => hk1 (hk1'.trans e)
        simp [alookup_cons, hbk', hne']
      | false =>
        simp [alookup_cons, hbk', ih]

lemma hasKeyB_iff_mem_keys {α : Type} (l : List (String × α)) (k : String) :
    hasKeyB l k = true ↔ k ∈ l.map Prod.fst := by
  induction l with
  | nil =>
    simp [hasKeyB, alookup]
  | cons p t ih =>
    obtain ⟨k1, v1⟩ := p
    cases hbk : (k1 == k) with
    | true =>
      have : k1 = k := by
        simpa using hbk
      subst this
      simp [hasKeyB, alookup_cons]
    | false =>
      have hne : k1 ≠ k := by
        simpa using hbk
      simp only [hasKeyB, alookup_cons, hbk, Bool.false_eq_true, if_false,
        List.map_cons, List.mem_cons]
      rw [show (alookup t k).isSome = hasKeyB t k from rfl]
      constructor
      · intro h
        exact Or.inr (ih.mp h)
      · rintro (h | h)
        · exact absurd h.symm hne
        · exact ih.mpr h

-- ===========================================================================
-- Theory of avoid-set reachability
-- ===========================================================================

lemma ReachAvoid.head_hasKey {m : FeatureManifest} {s : List String}
    {f x : String} (h : ReachAvoid m s f x) : hasKeyB m.features f = true := by
  cases h with
  | base _ hk _ => exact hk
  | step _ _ _ hk _ _ _ => exact hk

lemma ReachAvoid.head_not_mem {m : FeatureManifest} {s : List String}
    {f x : String} (h : ReachAvoid m s f x) : f ∉ s := by
  cases h with
  | base _ _ hns => exact hns
  | step _ _ _ _ hns _ _ => exact hns

lemma ReachAvoid.last_hasKey {m : FeatureManifest} {s : List String}
    {f x : String} (h : ReachAvoid m s f x) : hasKeyB m.features x = true := by
  induction h with
  | base _ hk _ => exact hk
  | step _ _ _ _ _ _ _ ih => exact ih

lemma ReachAvoid.mono {m : FeatureManifest} {s s' : List String}
    {g x : String} (hsub : s ⊆ s') (h : ReachAvoid m s' g x) :
    ReachAvoid m s g x := by
  induction h with
  | base f hk hns => exact ReachAvoid.base f hk (fun hm => hns (hsub hm))
  | step f d x hk hns hd _ ih =>
    exact ReachAvoid.step f d x hk (fun hm => hns (hsub hm)) hd ih

lemma ReachAvoid.comp {m : FeatureManifest} {s : List String}
    {a b c : String} (h1 : ReachAvoid m s a b) (h2 : ReachAvoid m s b c) :
    ReachAvoid m s a c := by
  induction h1 with
  | base _ _ _ => exact h2
  | step f d x hk hns hd _ ih =>
    exact ReachAvoid.step f d c hk hns hd (ih h2)

lemma ReachAvoid.split {m : FeatureManifest} {s : List String}
    {r x : String} (h : ReachAvoid m s r x) (s' : List String) :
    ReachAvoid m s' r x ∨
      ∃ y, y ∈ s' ∧ y ∉ s ∧ ReachAvoid m s r y ∧ ReachAvoid m s y x := by
  induction h with
  | base r hk hns =>
    by_cases hr : r ∈ s'
    · exact Or.inr ⟨r, hr, hns, ReachAvoid.base r hk hns,
        ReachAvoid.base r hk hns⟩
    · exact Or.inl (ReachAvoid.base r hk hr)
  | step f d x hk hns hd htail ih =>
    by_cases hf : f ∈ s'
    · exact Or.inr ⟨f, hf, hns, ReachAvoid.base f hk hns,
        ReachAvoid.step f d x hk hns hd htail⟩
    · cases ih with
      | inl htail' => exact Or.inl (ReachAvoid.step f d x hk hf hd htail')
      | inr hy =>
        obtain ⟨y, hy1, hy2, hdy, hyx⟩ := hy
        exact Or.inr ⟨y, hy1, hy2, ReachAvoid.step f d y hk hns hd hdy, hyx⟩

lemma ReachAvoid.insert {m : FeatureManifest} {s : List String}
    {g x : String} (h : ReachAvoid m s g x) (f : String) :
    ReachAvoid m (s ++ [f]) g x ∨
      (hasKeyB m.features f = true ∧ f ∉ s ∧
        (x = f ∨ ∃ d ∈ targetsOf m f, ReachAvoid m (s ++ [f]) d x)) := by
  induction h with
  | base g hk hns =>
    by_cases hgf : g = f
    · subst hgf
      exact Or.inr ⟨hk, hns, Or.inl rfl⟩
    · refine Or.inl (ReachAvoid.base g hk ?_)
      simp [hns, hgf]
  | step g d x hk hns hd htail ih =>
    cases ih with
    | inl htail' =>
      by_cases hgf : g = f
      · subst hgf
        exact Or.inr ⟨hk, hns, Or.inr ⟨d, hd, htail'⟩⟩
      · refine Or.inl (ReachAvoid.step g d x hk ?_ hd htail')
        simp [hns, hgf]
    | inr hr => exact Or.inr hr

lemma reachAvoid_head_iff {m : FeatureManifest} {s : List String}
    {f x : String} (hk : hasKeyB m.features f = true) (hns : f ∉ s) :
    ReachAvoid m s f x ↔
      (x = f ∨ ∃ d ∈ targetsOf m f, ReachAvoid m (s ++ [f]) d x) := by
  constructor
  · intro h
    cases h.insert f with
    | inl h' =>
      have := h'.head_not_mem
      simp at this
    | inr h' => exact h'.2.2
  · rintro (rfl | ⟨d, hd, hdx⟩)
    · exact ReachAvoid.base _ hk hns
    · refine ReachAvoid.step _ d x hk hns hd ?_
      exact hdx.mono (by intro a ha; simp [ha])

-- ===========================================================================
-- Unfolding lemmas for the fuelled enable
-- ===========================================================================

lemma enableList_nil (m : FeatureManifest) (n : Nat) (c : String)
    (st : RState) : enableList m n [] c st = some st := rfl

lemma enableList_cons (m : FeatureManifest) (n : Nat) (d : String)
    (ds : List String) (c : String) (st : RState) :
    enableList m n (d :: ds) c st =
      (enable m n d c st).bind (fun st1 => enableList m n ds c st1) := rfl

lemma enable_zero (m : FeatureManifest) (f c : String) (st : RState) :
    enable m 0 f c st = none := rfl

lemma enable_succ (m : FeatureManifest) (n : Nat) (f c : String)
    (st : RState) :
    enable m (n + 1) f c st =
      if hasKeyB m.features f then
        (if st.enabled.contains f then
          some ⟨addSet st.enabled f, addReason st.enabledBy f c⟩
        else
          enableList m n (targetsOf m f) f
            ⟨addSet st.enabled f, addReason st.enabledBy f c⟩)
      else some st := rfl

-- ===========================================================================
-- Characterization of enable: what the enabled set becomes
-- ===========================================================================

lemma enableList_char_of (m : FeatureManifest) (n : Nat)
    (H : ∀ f c st st', enable m n f c st = some st' →
      ∀ x, x ∈ st'.enabled ↔ (x ∈ st.enabled ∨ ReachAvoid m st.enabled f x)) :
    ∀ (names : List String) (c : String) (st st' : RState),
      enableList m n names c st = some st' →
      ∀ x, x ∈ st'.enabled ↔
        (x ∈ st.enabled ∨ ∃ r ∈ names, ReachAvoid m st.enabled r x) := by
  intro names
  induction names with
  | nil =>
    intro c st st' h x
    rw [enableList_nil] at h
    injection h with h
    subst h
    simp
  | cons d ds ih =>
    intro c st st' h x
    rw [enableList_cons] at h
    cases h1 : enable m n d c st with
    | none =>
      rw [h1] at h
      simp at h
    | some st1 =>
      rw [h1] at h
      simp only [Option.bind_some, Option.some_bind] at h
      have hd := H d c st st1 h1
      have hds := ih c st1 st' h
      have hsub : st.enabled ⊆ st1.enabled :=
        fun a ha => (hd a).mpr (Or.inl ha)
      have hsub2 : st1.enabled ⊆ st'.enabled :=
        fun a ha => (hds a).mpr (Or.inl ha)
      constructor
      · intro hx
        rcases (hds x).mp hx with hx1 | ⟨r, hr, hrx⟩
        · rcases (hd x).mp hx1 with hx0 | hreach
          · exact Or.inl hx0
          · exact Or.inr ⟨d, by simp, hreach⟩
        · exact Or.inr ⟨r, by simp [hr], hrx.mono hsub⟩
      · rintro (hx0 | ⟨r, hr, hrx⟩)
        · exact hsub2 (hsub hx0)
        · rcases List.mem_cons.mp hr with rfl | hrds
          · exact hsub2 ((hd x).mpr (Or.inr hrx))
          · rcases hrx.split st1.enabled with hdir | ⟨y, hy1, hy2, hry, hyx⟩
            · exact (hds x).mpr (Or.inr ⟨r, hrds, hdir⟩)
            · rcases (hd y).mp hy1 with hy0 | hreachy
              · exact absurd hy0 hy2
              · exact hsub2 ((hd x).mpr (Or.inr (hreachy.comp hyx)))

lemma enable_char (m : FeatureManifest) :
    ∀ (n : Nat) (f c : String) (st st' : RState),
      enable m n f c st = some st' →
      ∀ x, x ∈ st'.enabled ↔
        (x ∈ st.enabled ∨ ReachAvoid m st.enabled f x) := by
  intro n
  induction n with
  | zero =>
    intro f c st st' h
    rw [enable_zero] at h
    exact absurd h (by simp)
  | succ n ih =>
    intro f c st st' h x
    rw [enable_succ] at h
    by_cases hk : hasKeyB m.features f
    · rw [if_pos hk] at h
      by_cases hwas : st.enabled.contains f = true
      · rw [if_pos hwas] at h
        injection h with h
        subst h
        have hmem : f ∈ st.enabled := (contains_iff_mem _ _).mp hwas
        simp only [addSet_of_mem hmem]
        constructor
        · exact Or.inl
        · rintro (hx | hr)
          · exact hx
          · exact absurd hmem hr.head_not_mem
      · rw [if_neg hwas] at h
        have hnmem : f ∉ st.enabled :=
          fun hm => hwas ((contains_iff_mem _ _).mpr hm)
        have hlist := enableList_char_of m n ih (targetsOf m f) f _ st' h x
        simp only [addSet_of_not_mem hnmem] at hlist
        rw [hlist, reachAvoid_head_iff hk hnmem]
        simp only [List.mem_append, List.mem_singleton]
        tauto
    · rw [if_neg hk] at h
      injection h with h
      subst h
      constructor
      · exact Or.inl
      · rintro (hx | hr)
        · exact hx
        · exact absurd hr.head_hasKey (by simp [hk])

lemma enableList_char (m : FeatureManifest) (n : Nat) (names : List String)
    (c : String) (st st' : RState) (h : enableList m n names c st = some st') :
    ∀ x, x ∈ st'.enabled ↔
      (x ∈ st.enabled ∨ ∃ r ∈ names, ReachAvoid m st.enabled r x) :=
  enableList_char_of m n (enable_char m n) names c st st' h

lemma enable_subset {m : FeatureManifest} {n : Nat} {f c : String}
    {st st' : RState} (h : enable m n f c st = some st') :
    st.enabled ⊆ st'.enabled :=
  fun a ha => (enable_char m n f c st st' h a).mpr (Or.inl ha)

lemma enableList_subset {m : FeatureManifest} {n : Nat} {names : List String}
    {c : String} {st st' : RState} (h : enableList m n names c st = some st') :
    st.enabled ⊆ st'.enabled :=
  fun a ha => (enableList_char m n names c st st' h a).mpr (Or.inl ha)

lemma char_compose (m : FeatureManifest) (n : Nat) (names : List String)
    (c : String) (st1 st2 : RState) (roots1 : List String)
    (h1 : ∀ x, x ∈ st1.enabled ↔ ∃ r ∈ roots1, ReachAvoid m [] r x)
    (h2 : enableList m n names c st1 = some st2) :
    ∀ x, x ∈ st2.enabled ↔ ∃ r ∈ roots1 ++ names, ReachAvoid m [] r x := by
  intro x
  have hc := enableList_char m n names c st1 st2 h2 x
  constructor
  · intro hx
    rcases hc.mp hx with hx1 | ⟨r, hr, hrx⟩
    · obtain ⟨r, hr, hrx⟩ := (h1 x).mp hx1
      exact ⟨r, List.mem_append_left _ hr, hrx⟩
    · exact ⟨r, List.mem_append_right _ hr, hrx.mono (List.nil_subset _)⟩
  · rintro ⟨r, hr, hrx⟩
    rcases List.mem_append.mp hr with hr1 | hr2
    · exact hc.mpr (Or.inl ((h1 x).mpr ⟨r, hr1, hrx⟩))
    · rcases hrx.split st1.enabled with hdir | ⟨y, hy1, _, _, hyx⟩
      · exact hc.mpr (Or.inr ⟨r, hr2, hdir⟩)
      · obtain ⟨r1, hr1', hr1y⟩ := (h1 y).mp hy1
        exact hc.mpr (Or.inl ((h1 x).mpr ⟨r1, hr1', hr1y.comp hyx⟩))

lemma resolveFuel_char (m : FeatureManifest) (o : ResolveOptions)
    (st : RState) (h : resolveFuel m o = some st) :
    ∀ x, x ∈ st.enabled ↔ ∃ r ∈ rawRoots m o, ReachAvoid m [] r x := by
  unfold resolveFuel at h
  by_cases haf : o.allFeatures = true
  · simp only [haf, if_true] at h
    intro x
    have := enableList_char m (m.features.length + 1)
      (m.features.map Prod.fst) "<all-features>" ⟨[], []⟩ st h x
    simp only [List.not_mem_nil, false_or] at this
    rw [this]
    simp [rawRoots, haf]
  · simp only [haf, if_false, Bool.false_eq_true] at h
    by_cases hcond : (!o.noDefaultFeatures && hasKeyB m.features "default")
      = true
    · rw [if_pos hcond] at h
      cases hdef : enable m (m.features.length + 1) "default" "<default>"
          ⟨[], []⟩ with
      | none =>
        rw [hdef] at h
        simp at h
      | some st1 =>
        rw [hdef] at h
        simp only at h
        have h1 : ∀ x, x ∈ st1.enabled ↔
            ∃ r ∈ ["default"], ReachAvoid m [] r x := by
          intro x
          have := enable_char m (m.features.length + 1) "default" "<default>"
            ⟨[], []⟩ st1 hdef x
          simp only [List.not_mem_nil, false_or] at this
          rw [this]
          simp
        intro x
        rw [char_compose m (m.features.length + 1) o.features "<explicit>"
          st1 st ["default"] h1 h x]
        simp [rawRoots, haf, hcond]
    · rw [if_neg hcond] at h
      simp only at h
      have h1 : ∀ x, x ∈ (⟨[], []⟩ : RState).enabled ↔
          ∃ r ∈ ([] : List String), ReachAvoid m [] r x := by
        intro x
        simp
      intro x
      rw [char_compose m (m.features.length + 1) o.features "<explicit>"
        ⟨[], []⟩ st [] h1 h x]
      simp only [List.nil_append]
      have hcond' :
          (!o.noDefaultFeatures && hasKeyB m.features "default") = false := by
        cases hc : (!o.noDefaultFeatures && hasKeyB m.features "default")
        · rfl
        · exact absurd hc hcond
      simp [rawRoots, haf, hcond']

-- ===========================================================================
-- Sufficiency of the driver's fuel (termination of resolution)
-- ===========================================================================

/-- Number of declared features not yet enabled: the measure that shrinks
at every productive step of `enable`. -/
def missingCount (m : FeatureManifest) (s : List String) : Nat :=
  ((m.features.map Prod.fst).filter (fun k => !s.contains k)).length

lemma filter_length_mono (l : List String) (p q : String → Bool)
    (h : ∀ a, p a = true → q a = true) :
    (l.filter p).length ≤ (l.filter q).length := by
  induction l with
  | nil => simp
  | cons b t ih =>
    cases hp : p b with
    | true =>
      simp [List.filter, hp, h b hp]
      exact ih
    | false =>
      cases hq : q b with
      | true =>
        simp [List.filter, hp, hq]
        exact Nat.le_succ_of_le ih
      | false =>
        simp [List.filter, hp, hq]
        exact ih

lemma filter_length_strict (l : List String) (p q : String → Bool)
    (h : ∀ a, p a = true → q a = true) (a : String) (ha : a ∈ l)
    (hqa : q a = true) (hpa : p a = false) :
    (l.filter p).length < (l.filter q).length := by
  induction l with
  | nil => simp at ha
  | cons b t ih =>
    rcases List.mem_cons.mp ha with rfl | hat
    · simp [List.filter, hpa, hqa]
      exact Nat.lt_succ_of_le (filter_length_mono t p q h)
    · cases hp : p b with
      | true =>
        simp [List.filter, hp, h b hp]
        exact ih hat
      | false =>
        cases hq : q b with
        | true =>
          simp [List.filter, hp, hq]
          exact Nat.lt_succ_of_lt (ih hat)
        | false =>
          simp [List.filter, hp, hq]
          exact ih hat

lemma missingCount_mono (m : FeatureManifest) {s s' : List String}
    (hsub : s ⊆ s') : missingCount m s' ≤ missingCount m s := by
  apply filter_length_mono
  intro a hpa
  cases hc : s.contains a with
  | false => rfl
  | true =>
    have h2 : s'.contains a = true :=
      (contains_iff_mem _ _).mpr (hsub ((contains_iff_mem _ _).mp hc))
    rw [h2] at hpa
    exact absurd hpa (by decide)

lemma missingCount_strict (m : FeatureManifest) {s : List String}
    {f : String} (hk : hasKeyB m.features f = true) (hns : f ∉ s) :
    missingCount m (s ++ [f]) < missingCount m s := by
  have hmem : f ∈ m.features.map Prod.fst :=
    (hasKeyB_iff_mem_keys m.features f).mp hk
  have hq : (!s.contains f) = true := by
    cases hc : s.contains f with
    | false => rfl
    | true => exact absurd ((contains_iff_mem _ _).mp hc) hns
  have hp : (!(s ++ [f]).contains f) = false := by
    have h2 : (s ++ [f]).contains f = true :=
      (contains_iff_mem _ _).mpr (List.mem_append_right _ (by simp))
    rw [h2]
    rfl
  apply filter_length_strict _ _ _ ?_ f hmem hq hp
  intro a hpa
  cases hc : s.contains a with
  | false => rfl
  | true =>
    have h2 : (s ++ [f]).contains a = true :=
      (contains_iff_mem _ _).mpr
        (List.mem_append_left _ ((contains_iff_mem _ _).mp hc))
    rw [h2] at hpa
    exact absurd hpa (by decide)

lemma enableList_isSome_of (m : FeatureManifest) (n : Nat)
    (He : ∀ f c st, missingCount m st.enabled < n →
      (enable m n f c st).isSome = true) :
    ∀ (names : List String) (c : String) (st : RState),
      missingCount m st.enabled < n →
      (enableList m n names c st).isSome = true := by
  intro names
  induction names with
  | nil =>
    intro c st _
    rw [enableList_nil]
    rfl
  | cons d ds ih =>
    intro c st hmiss
    obtain ⟨st1, h1⟩ := Option.isSome_iff_exists.mp (He d c st hmiss)
    rw [enableList_cons, h1]
    simp only [Option.some_bind]
    exact ih c st1 (Nat.lt_of_le_of_lt
      (missingCount_mono m (enable_subset h1)) hmiss)

lemma enable_isSome (m : FeatureManifest) :
    ∀ (n : Nat) (f c : String) (st : RState),
      missingCount m st.enabled < n → (enable m n f c st).isSome = true := by
  intro n
  induction n with
  | zero =>
    intro f c st hmiss
    exact absurd hmiss (Nat.not_lt_zero _)
  | succ n ih =>
    intro f c st hmiss
    rw [enable_succ]
    by_cases hk : hasKeyB m.features f
    · rw [if_pos hk]
      by_cases hwas : st.enabled.contains f = true
      · rw [if_pos hwas]
        rfl
      · rw [if_neg hwas]
        have hnmem : f ∉ st.enabled :=
          fun hm => hwas ((contains_iff_mem _ _).mpr hm)
        apply enableList_isSome_of m n ih
        show missingCount m (addSet st.enabled f) < n
        rw [addSet_of_not_mem hnmem]
        exact Nat.lt_of_lt_of_le (missingCount_strict m hk hnmem)
          (Nat.lt_succ_iff.mp hmiss)
    · rw [if_neg hk]
      rfl

lemma missingCount_le_length (m : FeatureManifest) (s : List String) :
    missingCount m s ≤ m.features.length := by
  calc missingCount m s ≤ (m.features.map Prod.fst).length :=
        List.length_filter_le _ _
    _ = m.features.length := List.length_map _ _

/-- Feature resolution never runs out of fuel: the fuelled driver succeeds
on every manifest and every option set, including cyclic and
self-referencing manifests. -/
lemma resolveFuel_isSome (m : FeatureManifest) (o : ResolveOptions) :
    (resolveFuel m o).isSome = true := by
  unfold resolveFuel
  have hm0 : missingCount m ([] : List String) < m.features.length + 1 :=
    Nat.lt_succ_of_le (missingCount_le_length m [])
  by_cases haf : o.allFeatures = true
  · simp only [haf, if_true]
    exact enableList_isSome_of m (m.features.length + 1)
      (fun f c st h => enable_isSome m _ f c st h) _ _ _ hm0
  · simp only [haf, if_false, Bool.false_eq_true]
    by_cases hcond : (!o.noDefaultFeatures && hasKeyB m.features "default")
      = true
    · rw [if_pos hcond]
      obtain ⟨st1, h1⟩ := Option.isSome_iff_exists.mp
        (enable_isSome m (m.features.length + 1) "default" "<default>"
          ⟨[], []⟩ hm0)
      rw [h1]
      simp only
      exact enableList_isSome_of m (m.features.length + 1)
        (fun f c st h => enable_isSome m _ f c st h) _ _ _
        (Nat.lt_of_le_of_lt (missingCount_mono m (enable_subset h1)) hm0)
    · rw [if_neg hcond]
      simp only
      exact enableList_isSome_of m (m.features.length + 1)
        (fun f c st h => enable_isSome m _ f c st h) _ _ _ hm0

/-- The enabled set of a resolution, characterized by avoid-set
reachability from the raw root list. -/
lemma resolve_enabled_iff (m : FeatureManifest) (o : ResolveOptions)
    (x : String) :
    x ∈ (resolveFeatures m o).enabled ↔
      ∃ r ∈ rawRoots m o, ReachAvoid m [] r x := by
  obtain ⟨st, hst⟩ := Option.isSome_iff_exists.mp (resolveFuel_isSome m o)
  have : (resolveFeatures m o).enabled = st.enabled := by
    simp [resolveFeatures, hst]
  rw [this]
  exact resolveFuel_char m o st hst x

-- ===========================================================================
-- Bridging avoid-set reachability and plain reachability
-- ===========================================================================

lemma reachAvoid_nil_iff (m : FeatureManifest) (r x : String) :
    ReachAvoid m [] r x ↔
      (hasKeyB m.features r = true ∧
        Relation.ReflTransGen (StepRel m) r x) := by
  constructor
  · intro h
    refine ⟨h.head_hasKey, ?_⟩
    induction h with
    | base _ _ _ => exact Relation.ReflTransGen.refl
    | step f d x hk hns hd htail ih =>
      exact Relation.ReflTransGen.head ⟨htail.head_hasKey, hd⟩ ih
  · rintro ⟨hk, hrtg⟩
    revert hk
    induction hrtg using Relation.ReflTransGen.head_induction_on with
    | refl =>
      intro hk
      exact ReachAvoid.base _ hk (List.not_mem_nil _)
    | head h1 h2 ih =>
      intro hk
      exact ReachAvoid.step _ _ _ hk (List.not_mem_nil _) h1.2 (ih h1.1)

lemma exists_rawRoot_iff (m : FeatureManifest) (o : ResolveOptions)
    (x : String) :
    (∃ r ∈ rawRoots m o, ReachAvoid m [] r x) ↔
      (∃ r ∈ activationRoots m o,
        Relation.ReflTransGen (StepRel m) r x) := by
  constructor
  · rintro ⟨r, hr, hrx⟩
    refine ⟨r, ?_, ((reachAvoid_nil_iff m r x).mp hrx).2⟩
    have hk := hrx.head_hasKey
    unfold rawRoots at hr
    unfold activationRoots
    by_cases haf : o.allFeatures = true
    · rw [if_pos haf] at hr
      rw [if_pos haf]
      exact hr
    · rw [if_neg haf] at hr
      rw [if_neg haf]
      rcases List.mem_append.mp hr with h1 | h2
      · exact List.mem_append_left _ h1
      · exact List.mem_append_right _ (List.mem_filter.mpr ⟨h2, hk⟩)
  · rintro ⟨r, hr, hrtg⟩
    have hk : hasKeyB m.features r = true := by
      unfold activationRoots at hr
      by_cases haf : o.allFeatures = true
      · rw [if_pos haf] at hr
        exact (hasKeyB_iff_mem_keys _ _).mpr hr
      · rw [if_neg haf] at hr
        rcases List.mem_append.mp hr with h1 | h2
        · by_cases hcond :
            (!o.noDefaultFeatures && hasKeyB m.features "default") = true
          · rw [if_pos hcond] at h1
            have hrd : r = "default" := by
              simpa using h1
            subst hrd
            exact (Bool.and_eq_true _ _ |>.mp hcond).2
          · rw [if_neg hcond] at h1
            simp at h1
        · exact (List.mem_filter.mp h2).2
    refine ⟨r, ?_, (reachAvoid_nil_iff m r x).mpr ⟨hk, hrtg⟩⟩
    unfold activationRoots at hr
    unfold rawRoots
    by_cases haf : o.allFeatures = true
    · rw [if_pos haf] at hr ⊢
      exact hr
    · rw [if_neg haf] at hr ⊢
      rcases List.mem_append.mp hr with h1 | h2
      · exact List.mem_append_left _ h1
      · exact List.mem_append_right _ (List.mem_filter.mp h2).1

lemma edgeless_no_step : ∀ a b, ¬ StepRel edgelessManifest a b := by
  intro a b hstep
  obtain ⟨_, hb⟩ := hstep
  have htgt : targetsOf edgelessManifest a = [] := by
    unfold targetsOf
    rw [show edgelessManifest.features = [("default", [])] from rfl,
      alookup_cons]
    cases h : ("default" == a) <;> simp [h, alookup]
  rw [htgt] at hb
  exact List.not_mem_nil _ hb

lemma edgeless_acyclic :
    ∀ a, ¬ Relation.TransGen (StepRel edgelessManifest) a a := by
  intro a h
  cases h with
  | single h1 => exact edgeless_no_step _ _ h1
  | tail _ h2 => exact edgeless_no_step _ _ h2

-- ===========================================================================
-- Claim theorems: resolution engine
-- ===========================================================================

/-- C1: for every manifest whose local feature graph has no cycles,
`resolveFeatures` terminates (the fuelled driver succeeds) and the enabled
set equals exactly the set of declared features reachable, via the
activation-target relation, from the activated roots (all declared
features under `allFeatures`; otherwise the declared "default" feature
unless `noDefaultFeatures`, plus every declared name in
`options.features`). -/
theorem resolveFeatures_acyclic_enabled_iff_reachable
    (m : FeatureManifest) (o : ResolveOptions)
    (_hacyc : ∀ a, ¬ Relation.TransGen (StepRel m) a a) :
    (resolveFuel m o).isSome = true ∧
    ∀ x, (x ∈ (resolveFeatures m o).enabled ↔
      ∃ r ∈ activationRoots m o, Relation.ReflTransGen (StepRel m) r x) :=
  ⟨resolveFuel_isSome m o,
   fun x => (resolve_enabled_iff m o x).trans (exists_rawRoot_iff m o x)⟩

/-- Witness for C1 at the edge-free (hence acyclic) manifest. -/
theorem resolveFeatures_acyclic_enabled_iff_reachable_witness :
    (∀ a, ¬ Relation.TransGen (StepRel edgelessManifest) a a) ∧
    (resolveFuel edgelessManifest {}).isSome = true ∧
    ("default" ∈ (resolveFeatures edgelessManifest {}).enabled ↔
      ∃ r ∈ activationRoots edgelessManifest {},
        Relation.ReflTransGen (StepRel edgelessManifest) r "default") :=
  ⟨edgeless_acyclic,
   (resolveFeatures_acyclic_enabled_iff_reachable edgelessManifest {}
     edgeless_acyclic).1,
   (resolveFeatures_acyclic_enabled_iff_reachable edgelessManifest {}
     edgeless_acyclic).2 "default"⟩

/-- C2: whenever `options.allFeatures` is set, the enabled set equals the
full set of declared feature keys, whatever `options.features` and
`options.noDefaultFeatures` hold. -/
theorem resolveFeatures_allFeatures_enables_all (m : FeatureManifest)
    (o : ResolveOptions) (haf : o.allFeatures = true) :
    ∀ x, x ∈ (resolveFeatures m o).enabled ↔
      hasKeyB m.features x = true := by
  intro x
  rw [resolve_enabled_iff]
  constructor
  · rintro ⟨r, _, hrx⟩
    exact hrx.last_hasKey
  · intro hk
    refine ⟨x, ?_, ReachAvoid.base x hk (List.not_mem_nil x)⟩
    unfold rawRoots
    rw [if_pos haf]
    exact (hasKeyB_iff_mem_keys _ _).mp hk

/-- Witness for C2, with the other two options also set to exercise the
priority of the all-features flag. -/
theorem resolveFeatures_allFeatures_enables_all_witness :
    (⟨["std"], true, true⟩ : ResolveOptions).allFeatures = true ∧
    ("extra" ∈
        (resolveFeatures sampleManifest ⟨["std"], true, true⟩).enabled ↔
      hasKeyB sampleManifest.features "extra" = true) :=
  ⟨rfl, resolveFeatures_allFeatures_enables_all sampleManifest
    ⟨["std"], true, true⟩ rfl "extra"⟩

/-- C3: two option records that differ only in the order of
`options.features` produce the same enabled set. -/
theorem resolveFeatures_order_invariant (m : FeatureManifest)
    (o1 o2 : ResolveOptions) (hperm : o1.features.Perm o2.features)
    (hnd : o1.noDefaultFeatures = o2.noDefaultFeatures)
    (haf : o1.allFeatures = o2.allFeatures) :
    ∀ x, x ∈ (resolveFeatures m o1).enabled ↔
      x ∈ (resolveFeatures m o2).enabled := by
  intro x
  rw [resolve_enabled_iff, resolve_enabled_iff]
  have hmem : ∀ r, r ∈ rawRoots m o1 ↔ r ∈ rawRoots m o2 := by
    intro r
    unfold rawRoots
    rw [haf, hnd]
    cases h2 : o2.allFeatures
    · simp only [Bool.false_eq_true, if_false, List.mem_append]
      constructor
      · rintro (h | h)
        · exact Or.inl h
        · exact Or.inr (hperm.mem_iff.mp h)
      · rintro (h | h)
        · exact Or.inl h
        · exact Or.inr (hperm.mem_iff.mpr h)
    · simp
  constructor
  · rintro ⟨r, hr, hrx⟩
    exact ⟨r, (hmem r).mp hr, hrx⟩
  · rintro ⟨r, hr, hrx⟩
    exact ⟨r, (hmem r).mpr hr, hrx⟩

/-- Witness for C3 on a concrete permutation of explicit features. -/
theorem resolveFeatures_order_invariant_witness :
    (⟨["std", "extra"], false, false⟩ : ResolveOptions).features.Perm
      (⟨["extra", "std"], false, false⟩ : ResolveOptions).features ∧
    (⟨["std", "extra"], false, false⟩ :
      ResolveOptions).noDefaultFeatures =
      (⟨["extra", "std"], false, false⟩ :
        ResolveOptions).noDefaultFeatures ∧
    (⟨["std", "extra"], false, false⟩ : ResolveOptions).allFeatures =
      (⟨["extra", "std"], false, false⟩ : ResolveOptions).allFeatures ∧
    ("std" ∈ (resolveFeatures sampleManifest
        ⟨["std", "extra"], false, false⟩).enabled ↔
      "std" ∈ (resolveFeatures sampleManifest
        ⟨["extra", "std"], false, false⟩).enabled) :=
  ⟨by decide, rfl, rfl,
   resolveFeatures_order_invariant sampleManifest
     ⟨["std", "extra"], false, false⟩ ⟨["extra", "std"], false, false⟩
     (by decide) rfl rfl "std"⟩

/-- C5: for every manifest, including cyclic and self-referencing ones,
and every option record, the fuelled resolution driver succeeds: the
recursion never exhausts its fuel because an already-enabled feature's
targets are never re-expanded (`missingCount` strictly decreases at every
productive call). -/
theorem resolveFeatures_terminates (m : FeatureManifest)
    (o : ResolveOptions) : (resolveFuel m o).isSome = true :=
  resolveFuel_isSome m o

/-- C6: every name in the enabled set is a declared feature key of the
manifest (activating an undeclared name, such as `dep:x`, is a no-op). -/
theorem resolveFeatures_enabled_declared (m : FeatureManifest)
    (o : ResolveOptions) (x : String)
    (hx : x ∈ (resolveFeatures m o).enabled) :
    hasKeyB m.features x = true := by
  obtain ⟨r, _, hrx⟩ := (resolve_enabled_iff m o x).mp hx
  exact hrx.last_hasKey

/-- Witness for C6: "std" is enabled by default resolution of the sample
manifest and is indeed declared. -/
theorem resolveFeatures_enabled_declared_witness :
    ("std" ∈ (resolveFeatures sampleManifest {}).enabled) ∧
    hasKeyB sampleManifest.features "std" = true :=
  ⟨by decide,
   resolveFeatures_enabled_declared sampleManifest {} "std" (by decide)⟩

-- ===========================================================================
-- Provenance: causes recorded in enabledBy
-- ===========================================================================

lemma addReason_sub (eb : List (String × List String)) (f c : String) :
    ∀ x b, b ∈ reasonsOf eb x → b ∈ reasonsOf (addReason eb f c) x := by
  intro x b hb
  unfold addReason
  by_cases hc : ((alookup eb f).getD []).contains c = true
  · simp only [hc, if_true]
    exact hb
  · have hcf : ((alookup eb f).getD []).contains c = false := by
      cases h : ((alookup eb f).getD []).contains c
      · rfl
      · exact absurd h hc
    simp only [hcf, Bool.false_eq_true, if_false]
    unfold reasonsOf
    rw [alookup_aset]
    by_cases hx : x = f
    · subst hx
      simp only [if_pos rfl, Option.getD_some]
      exact List.mem_append_left _ hb
    · rw [if_neg hx]
      exact hb

lemma addReason_self (eb : List (String × List String)) (f c : String) :
    c ∈ reasonsOf (addReason eb f c) f := by
  unfold addReason
  by_cases hc : ((alookup eb f).getD []).contains c = true
  · simp only [hc, if_true]
    exact (contains_iff_mem _ _).mp hc
  · have hcf : ((alookup eb f).getD []).contains c = false := by
      cases h : ((alookup eb f).getD []).contains c
      · rfl
      · exact absurd h hc
    simp only [hcf, Bool.false_eq_true, if_false]
    unfold reasonsOf
    rw [alookup_aset, if_pos rfl]
    exact List.mem_append_right _ (by simp)

lemma enable_reasons_mono (m : FeatureManifest) :
    ∀ (n : Nat) (f c : String) (st st' : RState),
      enable m n f c st = some st' →
      ∀ x b, b ∈ reasonsOf st.enabledBy x →
        b ∈ reasonsOf st'.enabledBy x := by
  intro n
  induction n with
  | zero =>
    intro f c st st' h
    rw [enable_zero] at h
    exact absurd h (by simp)
  | succ n ih =>
    intro f c st st' h x b hb
    rw [enable_succ] at h
    by_cases hk : hasKeyB m.features f
    · rw [if_pos hk] at h
      by_cases hwas : st.enabled.contains f = true
      · rw [if_pos hwas] at h
        injection h with h
        subst h
        exact addReason_sub st.enabledBy f c x b hb
      · rw [if_neg hwas] at h
        have hb1 : b ∈ reasonsOf
            (RState.mk (addSet st.enabled f)
              (addReason st.enabledBy f c)).enabledBy x :=
          addReason_sub st.enabledBy f c x b hb
        clear hb
        generalize hst1 : (RState.mk (addSet st.enabled f)
          (addReason st.enabledBy f c)) = st1 at h hb1
        clear hst1
        revert st1 st'
        induction (targetsOf m f) with
        | nil =>
          intro stA stB h hb1
          rw [enableList_nil] at h
          injection h with h
          subst h
          exact hb1
        | cons d ds ihl =>
          intro stA stB h hb1
          rw [enableList_cons] at h
          cases h1 : enable m n d f stB with
          | none =>
            rw [h1] at h
            simp at h
          | some st2 =>
            rw [h1] at h
            simp only [Option.some_bind] at h
            exact ihl stA st2 h (ih d f stB st2 h1 x b hb1)
    · rw [if_neg hk] at h
      injection h with h
      subst h
      exact hb

lemma enableList_reasons_mono (m : FeatureManifest) (n : Nat) :
    ∀ (names : List String) (c : String) (st st' : RState),
      enableList m n names c st = some st' →
      ∀ x b, b ∈ reasonsOf st.enabledBy x →
        b ∈ reasonsOf st'.enabledBy x := by
  intro names
  induction names with
  | nil =>
    intro c st st' h x b hb
    rw [enableList_nil] at h
    injection h with h
    subst h
    exact hb
  | cons d ds ih =>
    intro c st st' h x b hb
    rw [enableList_cons] at h
    cases h1 : enable m n d c st with
    | none =>
      rw [h1] at h
      simp at h
    | some st1 =>
      rw [h1] at h
      simp only [Option.some_bind] at h
      exact ih c st1 st' h x b (enable_reasons_mono m n d c st st1 h1 x b hb)

lemma enable_records (m : FeatureManifest) (n : Nat) (f c : String)
    (st st' : RState) (h : enable m n f c st = some st')
    (hk : hasKeyB m.features f = true) :
    c ∈ reasonsOf st'.enabledBy f := by
  cases n with
  | zero =>
    rw [enable_zero] at h
    exact absurd h (by simp)
  | succ n =>
    rw [enable_succ, if_pos hk] at h
    by_cases hwas : st.enabled.contains f = true
    · rw [if_pos hwas] at h
      injection h with h
      subst h
      exact addReason_self st.enabledBy f c
    · rw [if_neg hwas] at h
      exact enableList_reasons_mono m n (targetsOf m f) f _ st' h f c
        (addReason_self st.enabledBy f c)

lemma enableList_records (m : FeatureManifest) (n : Nat) :
    ∀ (names : List String) (c : String) (st st' : RState),
      enableList m n names c st = some st' →
      ∀ d, d ∈ names → hasKeyB m.features d = true →
      c ∈ reasonsOf st'.enabledBy d := by
  intro names
  induction names with
  | nil =>
    intro c st st' _ d hd
    exact absurd hd (List.not_mem_nil d)
  | cons d' ds ih =>
    intro c st st' h d hd hk
    rw [enableList_cons] at h
    cases h1 : enable m n d' c st with
    | none =>
      rw [h1] at h
      simp at h
    | some st1 =>
      rw [h1] at h
      simp only [Option.some_bind] at h
      rcases List.mem_cons.mp hd with rfl | hds
      · exact enableList_reasons_mono m n ds c st1 st' h d c
          (enable_records m n d c st st1 h1 hk)
      · exact ih c st1 st' h d hds hk

lemma enable_expands (m : FeatureManifest) :
    ∀ (n : Nat) (f c : String) (st st' : RState),
      enable m n f c st = some st' →
      ∀ a, a ∈ st'.enabled → a ∉ st.enabled →
      ∀ d, hasKeyB m.features d = true → d ∈ targetsOf m a →
      a ∈ reasonsOf st'.enabledBy d := by
  intro n
  induction n with
  | zero =>
    intro f c st st' h
    rw [enable_zero] at h
    exact absurd h (by simp)
  | succ n ih =>
    have hlist : ∀ (names : List String) (c : String) (st st' : RState),
        enableList m n names c st = some st' →
        ∀ a, a ∈ st'.enabled → a ∉ st.enabled →
        ∀ d, hasKeyB m.features d = true → d ∈ targetsOf m a →
        a ∈ reasonsOf st'.enabledBy d := by
      intro names
      induction names with
      | nil =>
        intro c st st' h a ha hna d hk hd
        rw [enableList_nil] at h
        injection h with h
        subst h
        exact absurd ha hna
      | cons d' ds ihl =>
        intro c st st' h a ha hna d hk hd
        rw [enableList_cons] at h
        cases h1 : enable m n d' c st with
        | none =>
          rw [h1] at h
          simp at h
        | some st1 =>
          rw [h1] at h
          simp only [Option.some_bind] at h
          by_cases ha1 : a ∈ st1.enabled
          · exact enableList_reasons_mono m n ds c st1 st' h d a
              (ih d' c st st1 h1 a ha1 hna d hk hd)
          · exact ihl c st1 st' h a ha ha1 d hk hd
    intro f c st st' h a ha hna d hk hd
    rw [enable_succ] at h
    by_cases hkf : hasKeyB m.features f
    · rw [if_pos hkf] at h
      by_cases hwas : st.enabled.contains f = true
      · rw [if_pos hwas] at h
        injection h with h
        subst h
        have hmemf : f ∈ st.enabled := (contains_iff_mem _ _).mp hwas
        simp only [addSet_of_mem hmemf] at ha
        exact absurd ha hna
      · rw [if_neg hwas] at h
        have hnm : f ∉ st.enabled :=
          fun hm => hwas ((contains_iff_mem _ _).mpr hm)
        by_cases haf : a = f
        · subst haf
          exact enableList_records m n (targetsOf m a) a _ st' h d hd hk
        · have ha1 : a ∉ (RState.mk (addSet st.enabled f)
              (addReason st.enabledBy f c)).enabled := by
            simp only [addSet_of_not_mem hnm]
            simp [hna, haf]
          exact hlist (targetsOf m f) f _ st' h a ha ha1 d hk hd
    · rw [if_neg hkf] at h
      injection h with h
      subst h
      exact absurd ha hna

lemma enableList_expands (m : FeatureManifest) (n : Nat) :
    ∀ (names : List String) (c : String) (st st' : RState),
      enableList m n names c st = some st' →
      ∀ a, a ∈ st'.enabled → a ∉ st.enabled →
      ∀ d, hasKeyB m.features d = true → d ∈ targetsOf m a →
      a ∈ reasonsOf st'.enabledBy d := by
  intro names
  induction names with
  | nil =>
    intro c st st' h a ha hna d hk hd
    rw [enableList_nil] at h
    injection h with h
    subst h
    exact absurd ha hna
  | cons d' ds ihl =>
    intro c st st' h a ha hna d hk hd
    rw [enableList_cons] at h
    cases h1 : enable m n d' c st with
    | none =>
      rw [h1] at h
      simp at h
    | some st1 =>
      rw [h1] at h
      simp only [Option.some_bind] at h
      by_cases ha1 : a ∈ st1.enabled
      · exact enableList_reasons_mono m n ds c st1 st' h d a
          (enable_expands m n d' c st st1 h1 a ha1 hna d hk hd)
      · exact ihl c st1 st' h a ha ha1 d hk hd

/-- Every enabled feature is recorded as an enabler of each of its
declared activation targets. -/
lemma resolve_expands (m : FeatureManifest) (o : ResolveOptions) :
    ∀ a, a ∈ (resolveFeatures m o).enabled →
    ∀ d, hasKeyB m.features d = true → d ∈ targetsOf m a →
    a ∈ reasonsOf (resolveFeatures m o).enabledBy d := by
  obtain ⟨st, hst⟩ := Option.isSome_iff_exists.mp (resolveFuel_isSome m o)
  have hen : (resolveFeatures m o).enabled = st.enabled := by
    simp [resolveFeatures, hst]
  have heb : (resolveFeatures m o).enabledBy = st.enabledBy := by
    simp [resolveFeatures, hst]
  rw [hen, heb]
  unfold resolveFuel at hst
  intro a ha d hk hd
  by_cases haf : o.allFeatures = true
  · rw [if_pos haf] at hst
    exact enableList_expands m (m.features.length + 1) _ _ _ st hst a ha
      (List.not_mem_nil a) d hk hd
  · rw [if_neg haf] at hst
    by_cases hcond : (!o.noDefaultFeatures && hasKeyB m.features "default")
      = true
    · rw [if_pos hcond] at hst
      cases hdef : enable m (m.features.length + 1) "default" "<default>"
          ⟨[], []⟩ with
      | none =>
        rw [hdef] at hst
        simp at hst
      | some st1 =>
        rw [hdef] at hst
        simp only at hst
        by_cases ha1 : a ∈ st1.enabled
        · exact enableList_reasons_mono m (m.features.length + 1) o.features
            "<explicit>" st1 st hst d a
            (enable_expands m (m.features.length + 1) "default" "<default>"
              ⟨[], []⟩ st1 hdef a ha1 (List.not_mem_nil a) d hk hd)
        · exact enableList_expands m (m.features.length + 1) o.features
            "<explicit>" st1 st hst a ha ha1 d hk hd
    · rw [if_neg hcond] at hst
      simp only at hst
      exact enableList_expands m (m.features.length + 1) o.features
        "<explicit>" ⟨[], []⟩ st hst a ha (List.not_mem_nil a) d hk hd

-- ===========================================================================
-- Claim theorems: provenance, cycles, validation, registry
-- ===========================================================================

/-- C4: on the diamond manifest, resolving ["top"] without defaults
enables "bottom" exactly once and records both "left" and "right" as its
enablers; in general every enabled feature is recorded as an enabler of
each of its declared activation targets, so a feature activated through
two distinct enabled features has both recorded. -/
theorem diamond_bottom_once_both_enablers :
    ((resolveFeatures diamondManifest ⟨["top"], true, false⟩).enabled.count
      "bottom" = 1) ∧
    "left" ∈ reasonsOf
      (resolveFeatures diamondManifest ⟨["top"], true, false⟩).enabledBy
      "bottom" ∧
    "right" ∈ reasonsOf
      (resolveFeatures diamondManifest ⟨["top"], true, false⟩).enabledBy
      "bottom" ∧
    (∀ (m : FeatureManifest) (o : ResolveOptions) (a d : String),
      a ∈ (resolveFeatures m o).enabled →
      hasKeyB m.features d = true → d ∈ targetsOf m a →
      a ∈ reasonsOf (resolveFeatures m o).enabledBy d) := by
  refine ⟨by decide, by decide, by decide, ?_⟩
  intro m o a d ha hk hd
  exact resolve_expands m o a ha d hk hd

/-- Witness for the general clause of C4, instantiated on the diamond. -/
theorem diamond_bottom_once_both_enablers_witness :
    ("left" ∈
      (resolveFeatures diamondManifest ⟨["top"], true, false⟩).enabled) ∧
    hasKeyB diamondManifest.features "bottom" = true ∧
    "bottom" ∈ targetsOf diamondManifest "left" ∧
    "left" ∈ reasonsOf
      (resolveFeatures diamondManifest ⟨["top"], true, false⟩).enabledBy
      "bottom" :=
  ⟨by decide, by decide, by decide,
   diamond_bottom_once_both_enablers.2.2.2 diamondManifest
     ⟨["top"], true, false⟩ "left" "bottom" (by decide) (by decide)
     (by decide)⟩

/-- C7: `detectCycles` returns a non-empty cycle on the two-cycle manifest
and the empty list on the diamond (no false positive on convergent
acyclic graphs). -/
theorem detectCycles_two_cycle_and_diamond :
    (∃ cyc ∈ detectCycles twoCycleManifest, cyc ≠ []) ∧
    detectCycles diamondManifest = [] := by
  constructor
  · exact ⟨["a", "b", "a"], by decide, by decide⟩
  · decide

lemma mem_foldl_append {β : Type} (f : β → List String) (l : List β)
    (init : List String) (x : String) :
    x ∈ l.foldl (fun acc e => acc ++ f e) init ↔
      x ∈ init ∨ ∃ e ∈ l, x ∈ f e := by
  induction l generalizing init with
  | nil => simp
  | cons e t ih =>
    simp only [List.foldl_cons]
    rw [ih]
    simp only [List.mem_append, List.mem_cons]
    constructor
    · rintro ((h | h) | ⟨e', he', hx⟩)
      · exact Or.inl h
      · exact Or.inr ⟨e, Or.inl rfl, h⟩
      · exact Or.inr ⟨e', Or.inr he', hx⟩
    · rintro (h | ⟨e', (rfl | he'), hx⟩)
      · exact Or.inl (Or.inl h)
      · exact Or.inl (Or.inr hx)
      · exact Or.inr ⟨e', he', hx⟩

lemma mem_isEmpty_false {α : Type} {l : List α} {x : α} (h : x ∈ l) :
    l.isEmpty = false := by
  cases l with
  | nil => exact absurd h (List.not_mem_nil x)
  | cons a t => rfl

/-- C8: a local activation target (not `dep:`-prefixed, not
`pkg:feature`-shaped) that is not a declared feature key makes
`validateManifest` invalid, with the unknown-feature error naming the
target. The `Nodup` hypothesis states what JS `Map` semantics guarantee:
declared feature keys are unique. -/
theorem validateManifest_unknown_target_invalid (m : FeatureManifest)
    (opts : Option ValidateOptions) (name : String) (deps : List String)
    (t : String) (_hnodup : (m.features.map Prod.fst).Nodup)
    (hmem : (name, deps) ∈ m.features) (ht : t ∈ deps)
    (hdep : jsStartsWith t "dep:" = false)
    (href : isDepFeatureRef t = false)
    (hkey : hasKeyB m.features t = false) :
    (validateManifest m opts).valid = false ∧
    unknownFeatureMsg name t ∈ (validateManifest m opts).errors := by
  have hcontains : (m.features.map Prod.fst).contains t = false := by
    cases hc : (m.features.map Prod.fst).contains t
    · rfl
    · have hmemk := (contains_iff_mem _ _).mp hc
      have := (hasKeyB_iff_mem_keys m.features t).mpr hmemk
      rw [this] at hkey
      exact absurd hkey (by decide)
  have hval : validateFeatureReference t name (m.features.map Prod.fst) =
      some (unknownFeatureMsg name t) := by
    unfold validateFeatureReference
    rw [hdep, href, hcontains]
    simp
  have hentry : unknownFeatureMsg name t ∈
      entryErrors (m.features.map Prod.fst) (name, deps) := by
    unfold entryErrors
    apply List.mem_append_right
    exact List.mem_filterMap.mpr ⟨t, ht, hval⟩
  have hfold : unknownFeatureMsg name t ∈
      m.features.foldl
        (fun acc e => acc ++ entryErrors (m.features.map Prod.fst) e) [] :=
    (mem_foldl_append _ _ _ _).mpr (Or.inr ⟨(name, deps), hmem, hentry⟩)
  have herr : unknownFeatureMsg name t ∈ (validateManifest m opts).errors :=
    List.mem_append_left _ (List.mem_append_left _ hfold)
  exact ⟨mem_isEmpty_false herr, herr⟩

/-- Witness for C8 on the manifest of the specification example. -/
theorem validateManifest_unknown_target_invalid_witness :
    (unknownRefManifest.features.map Prod.fst).Nodup ∧
    ("a", ["unknown-x"]) ∈ unknownRefManifest.features ∧
    "unknown-x" ∈ ["unknown-x"] ∧
    jsStartsWith "unknown-x" "dep:" = false ∧
    isDepFeatureRef "unknown-x" = false ∧
    hasKeyB unknownRefManifest.features "unknown-x" = false ∧
    ((validateManifest unknownRefManifest none).valid = false ∧
      unknownFeatureMsg "a" "unknown-x" ∈
        (validateManifest unknownRefManifest none).errors) :=
  ⟨by decide, by decide, by decide, by decide, by decide, by decide,
   validateManifest_unknown_target_invalid unknownRefManifest none "a"
     ["unknown-x"] "unknown-x" (by decide) (by decide) (by decide)
     (by decide) (by decide) (by decide)⟩

/-- C9 (code-bug evidence): `requireFeature` on the disabled feature "x"
raises `FeatureNotFoundError` carrying only the feature name, although
the stored state has reason "default-disabled" and the function's own doc
comment promises `FeatureNotEnabledError` (which would carry the state
and reason); on the enabled feature "y" it returns without raising. -/
theorem requireFeature_raises_featureNotFound :
    requireFeature sampleRegistry "x" =
      Except.error (RegistryError.featureNotFoundErr "x") ∧
    alookup sampleRegistry.states "x" =
      some ⟨false, "default-disabled", none⟩ ∧
    requireFeature sampleRegistry "y" = Except.ok () :=
  ⟨rfl, rfl, rfl⟩

/-- C10: `setFeatureState` returns a new registry with the input's schema
and config, agreeing with the input's state map on every other feature
id; `enableFeature` and `disableFeature` are its true/false instances.
The input registry value is untouched (the embedding is pure, as is the
JS code, which copies the map before writing). -/
theorem setFeatureState_frame (r : FeatureRegistry) (id : String)
    (enabled : Bool) (id' : String) (hne : id' ≠ id) :
    (setFeatureState r id enabled).schema = r.schema ∧
    (setFeatureState r id enabled).config = r.config ∧
    alookup (setFeatureState r id enabled).states id' =
      alookup r.states id' ∧
    enableFeature r id = setFeatureState r id true ∧
    disableFeature r id = setFeatureState r id false := by
  refine ⟨rfl, rfl, ?_, rfl, rfl⟩
  unfold setFeatureState applyEnable applyDisable
  cases enabled <;> simp [alookup_aset, hne]

/-- Witness for C10: changing "y" leaves "x"'s state binding intact. -/
theorem setFeatureState_frame_witness :
    ("x" ≠ "y") ∧
    ((setFeatureState sampleRegistry "y" false).schema =
        sampleRegistry.schema ∧
      (setFeatureState sampleRegistry "y" false).config =
        sampleRegistry.config ∧
      alookup (setFeatureState sampleRegistry "y" false).states "x" =
        alookup sampleRegistry.states "x" ∧
      enableFeature sampleRegistry "y" =
        setFeatureState sampleRegistry "y" true ∧
      disableFeature sampleRegistry "y" =
        setFeatureState sampleRegistry "y" false) :=
  ⟨by decide, setFeatureState_frame sampleRegistry "y" false "x" (by decide)⟩
